import Mathlib

/-!
Shallow embedding of the valuation / Monte-Carlo / risk-matrix core of
`src/components/MonteCarloAndRisk.tsx` (the utility functions are duplicated
verbatim in the app shell file; we embed each once).

Modelling conventions:
* JavaScript numbers are modelled as exact rationals `ℚ`.
* Where the JavaScript code can produce `NaN` or `undefined` (a `0/0`
  division, indexing with a `NaN` index), the embedding returns
  `Option ℚ` with `none` standing for the non-finite result, so the
  divergence is visible instead of being absorbed by Lean's junk value
  for division by zero.
* Loops that push one element per iteration are embedded as `List.map`
  over `List.range`; `forEach`-style counter increments are embedded as
  `List.filter` + `length` (the final counter value counts exactly the
  elements that selected that counter).
-/

/-- `clamp(v, a, b) = Math.max(a, Math.min(b, v))`. -/
def clamp (v a b : ℚ) : ℚ := max a (min b v)

/-- `npv(cashflows, rate) = cashflows.reduce((acc, cf, t) => acc + cf / (1+rate)^t, 0)`:
the series value is `Σ_t cashflows[t] / (1+rate)^t`. -/
def npv (cashflows : List ℚ) (rate : ℚ) : ℚ :=
  (cashflows.enum.map (fun q => q.2 / (1 + rate) ^ q.1)).sum

/-- `mean(arr) = arr.reduce((a,b)=>a+b,0) / (arr.length || 1)`. -/
def mean (arr : List ℚ) : ℚ :=
  arr.sum / (if arr.length = 0 then 1 else (arr.length : ℚ))

/-- The radicand of `std`: `mean(arr.map(x => (x - m)^2))` with `m = mean arr`.
The source's `std` is the (real) square root of this quantity. -/
def stdSq (arr : List ℚ) : ℚ :=
  mean (arr.map (fun x => (x - mean arr) ^ 2))

/-- `std(arr) = Math.sqrt(mean(arr.map(x => (x - m)^2)))`, embedded with the
real square root applied to the exact rational radicand. -/
noncomputable def std (arr : List ℚ) : ℝ :=
  Real.sqrt (stdSq arr)

/-- `percentile(arr, p)`: `NaN` on the empty array (modelled `none`);
otherwise sort ascending, take fractional index `idx = (p/100)·(len-1)`,
`lo = ⌊idx⌋`, `hi = ⌈idx⌉`; return `sorted[lo]` when `lo = hi`, else the
linear interpolation `sorted[lo]·(1-w) + sorted[hi]·w` with `w = idx - lo`.
Array reads are embedded with `getD _ 0`; for `p ∈ [0,100]` (the only range
the spec exercises) both indices are in bounds, so the default is inert. -/
def percentile (arr : List ℚ) (p : ℚ) : Option ℚ :=
  if arr = [] then none
  else
    let sorted := List.insertionSort (· ≤ ·) arr
    let idx : ℚ := (p / 100) * ((sorted.length : ℚ) - 1)
    let lo : ℤ := ⌊idx⌋
    let hi : ℤ := ⌈idx⌉
    if lo = hi then some (sorted.getD lo.toNat 0)
    else
      let w : ℚ := idx - (lo : ℚ)
      some (sorted.getD lo.toNat 0 * (1 - w) + sorted.getD hi.toNat 0 * w)

/-- The uniform linear-interpolation value used by `percentile`:
`s[⌊q⌋]·(1-w) + s[⌈q⌉]·w` with `w = q - ⌊q⌋`.  When `q` is an integer the
weight is `0` and this collapses to the `lo = hi` early-return branch of
the source. -/
def interpAt (s : List ℚ) (q : ℚ) : ℚ :=
  s.getD (⌊q⌋).toNat 0 * (1 - (q - (⌊q⌋ : ℚ))) + s.getD (⌈q⌉).toNat 0 * (q - (⌊q⌋ : ℚ))

/-- `Math.min(...values)` over a non-empty array (the `[]` case is junk `0`,
reachable only behind the emptiness guards of the callers). -/
def listMin : List ℚ → ℚ
  | [] => 0
  | v :: tl => tl.foldl min v

/-- `Math.max(...values)` over a non-empty array (same junk convention). -/
def listMax : List ℚ → ℚ
  | [] => 0
  | v :: tl => tl.foldl max v

/-- The histogram bin index of a value:
`clamp(Math.floor((v - minV) / step), 0, bins - 1)` — written with the
integer `max`/`min` form of `clamp`, since the result is used as an array
index (a non-negative integer). -/
def binIndex (minV step : ℚ) (bins : ℕ) (v : ℚ) : ℕ :=
  (max 0 (min ((bins : ℤ) - 1) ⌊(v - minV) / step⌋)).toNat

/-- One histogram bin `{x0, x1, count}`. -/
structure HBin where
  x0 : ℚ
  x1 : ℚ
  count : ℕ
  deriving DecidableEq

/-- `buildHistogram(values, bins)`: empty input returns no bins; otherwise
span `[min, max]` (a zero span is replaced by `1`: `span = maxV - minV || 1`),
`step = span / bins`, and each value increments the counter at its
`binIndex`.  The `forEach` counter array is embedded by counting, per bin
index `i`, the values whose `binIndex` is `i`. -/
def buildHistogram (values : List ℚ) (bins : ℕ) : List HBin :=
  if values = [] then []
  else
    let minV := listMin values
    let maxV := listMax values
    let span := if maxV - minV = 0 then 1 else maxV - minV
    let step := span / (bins : ℚ)
    (List.range bins).map (fun (i : ℕ) =>
      ⟨minV + (i : ℚ) * step, minV + ((i : ℚ) + 1) * step,
        (values.filter (fun v => binIndex minV step bins v = i)).length⟩)

/-- `buildCDF(values, points)`: empty input gives `[]`; otherwise sort and,
for `i` in `0..points-1`, emit `(sorted[idx], idx/(n-1))` with
`idx = ⌊(i/(points-1))·(n-1)⌋`.  With `points = 1` the rank computation is
`0/0 = NaN`, `sorted[NaN]` is `undefined` and the probability is `NaN`:
modelled as the pair `(none, none)`.  With a single outcome (`n = 1`) the
probability `idx/(n-1) = 0/0` is `NaN` as well: modelled `none`. -/
def buildCDF (values : List ℚ) (points : ℕ) : List (Option ℚ × Option ℚ) :=
  if values = [] then []
  else
    let sorted := List.insertionSort (· ≤ ·) values
    let n := sorted.length
    (List.range points).map (fun (i : ℕ) =>
      if points = 1 then (none, none)
      else
        let idx := (⌊((i : ℚ) / ((points : ℚ) - 1)) * ((n : ℚ) - 1)⌋).toNat
        (sorted[idx]?, if n = 1 then none else some ((idx : ℚ) / ((n : ℚ) - 1))))

/-- A qualitative risk item `{name, p, i}` with probability and impact
ratings. -/
structure RiskItem where
  name : String
  p : ℚ
  i : ℚ

/-- The three labels produced by `riskLevel` (the source attaches CSS
classes to the same three labels; only the label is behaviour). -/
inductive RiskLevelLabel where
  | low
  | medium
  | high
  deriving DecidableEq

/-- `riskLevel(score)`: `Low` if `score ≤ 6`, `Medium` if `score ≤ 14`,
else `High`. -/
def riskLevel (score : ℚ) : RiskLevelLabel :=
  if score ≤ 6 then .low else if score ≤ 14 then .medium else .high

/-- `riskLevel` as applied to a possibly-`NaN` JavaScript number: both
`NaN <= 6` and `NaN <= 14` are false in JavaScript, so `NaN` (modelled
`none`) falls through to `High`. -/
def riskLevelJS (score : Option ℚ) : RiskLevelLabel :=
  match score with
  | none => .high
  | some s => riskLevel s

/-- `totalRiskScore = risks.reduce((acc,r) => acc + r.p*r.i, 0) / risks.length`.
For an empty list this is `0/0 = NaN` in JavaScript, modelled `none`. -/
def totalRiskScore (risks : List RiskItem) : Option ℚ :=
  if risks.length = 0 then none
  else some ((risks.map (fun r => r.p * r.i)).sum / (risks.length : ℚ))

/-- The three verdicts of `fallbackAnalysis` (the surrounding prose of the
narrative is presentation; the verdict choice is the behaviour). -/
inductive Verdict where
  | accept
  | needsOptimization
  | reject
  deriving DecidableEq

/-- The verdict selection of `fallbackAnalysis`:
`goodNPV = npvValue > 0`, `goodIRR = irrValue > rate`;
default reject, accept when both hold, needs-optimization when at least
one holds. -/
def fallbackVerdict (npvValue irrValue rate : ℚ) : Verdict :=
  if 0 < npvValue ∧ rate < irrValue then .accept
  else if 0 < npvValue ∨ rate < irrValue then .needsOptimization
  else .reject

/-- The derivative accumulator of `irr`:
`df = Σ_t (-t · cashflows[t]) / (1+x)^(t+1)`. -/
def npvDeriv (cashflows : List ℚ) (x : ℚ) : ℚ :=
  (cashflows.enum.map (fun q => (-(q.1 : ℚ)) * q.2 / (1 + x) ^ (q.1 + 1))).sum

/-- One fuelled pass of the Newton loop of `irr`.  Per iteration the source
computes `f`, `df`, `nx = x - f/df`, breaks when `nx` is non-finite — in
exact arithmetic the only source of a non-finite `nx` is `df = 0`
(`f/0 = ±Infinity` or `NaN`), so that test is embedded as `df = 0` —
returns `nx` when `|nx - x| < 1e-9`, and otherwise continues; the exhausted
loop (or the break) returns the `NaN` sentinel, modelled `none`. -/
def irrGo (cashflows : List ℚ) (x : ℚ) : ℕ → Option ℚ
  | 0 => none
  | fuel + 1 =>
    let f := npv cashflows x
    let df := npvDeriv cashflows x
    if df = 0 then none
    else
      let nx := x - f / df
      if |nx - x| < 1 / 1000000000 then some nx
      else irrGo cashflows nx fuel

/-- `irr(cashflows, guess = 0.2)`: at most 80 Newton iterations. -/
def irr (cashflows : List ℚ) (guess : ℚ) : Option ℚ :=
  irrGo cashflows guess 80

/-- Number of sign changes of a series: adjacent pairs of opposite sign
after discarding zero entries. -/
def signChanges (l : List ℚ) : ℕ :=
  go (l.filter (fun x => x ≠ 0))
where
  go : List ℚ → ℕ
    | a :: b :: tl => (if a * b < 0 then 1 else 0) + go (b :: tl)
    | _ => 0

/-- One cash-flow row `{year, revenue, cost, net}` as passed to the
simulator component. -/
structure Row where
  year : ℤ
  revenue : ℚ
  cost : ℚ
  net : ℚ

/-- Number of `randn()` draws one trial consumes: two per schedule year
(revenue shock, then cost shock), plus one for the discount-rate shock
when `randomizeRate` is set. -/
def drawsPerTrial (years : ℕ) (randomizeRate : Bool) : ℕ :=
  2 * years + (if randomizeRate then 1 else 0)

/-- One trial of `runSim`, with the injected standard-normal stream `rands`
consumed from offset `base` in call order.  Mirrors the loop body:
`simCF = [t0]`; for each year `y`:
`baseRev = rows[y].revenue·(1+revTrend)^y`, `baseCost = rows[y].cost·(1+costTrend)^y`,
`rev = baseRev·(1 + z·revVol)`, `cost = baseCost·(1 + z·costVol)`,
push `rev - cost`; then `r = clamp(baseRate + z·rateVol, 0.01, 0.8)` when
`randomizeRate` else `baseRate`; the trial outcome is `npv simCF r`. -/
def simTrial (rows : List Row) (t0 : ℚ) (revTrend costTrend revVol costVol : ℚ)
    (randomizeRate : Bool) (rateVol baseRate : ℚ) (rands : ℕ → ℚ) (base : ℕ) : ℚ :=
  let years := rows.length
  let simCF := t0 :: (rows.enum.map (fun yr =>
    let y := yr.1
    let baseRev := yr.2.revenue * (1 + revTrend) ^ y
    let baseCost := yr.2.cost * (1 + costTrend) ^ y
    let revShock := 1 + rands (base + 2 * y) * revVol
    let costShock := 1 + rands (base + 2 * y + 1) * costVol
    baseRev * revShock - baseCost * costShock))
  let r := if randomizeRate
    then clamp (baseRate + rands (base + 2 * years) * rateVol) (1 / 100) (4 / 5)
    else baseRate
  npv simCF r

/-- `runSim`: `runs` trials, pushed in trial order; `t0 = cashflows[0]` and
the per-trial draws start where the previous trial's draws ended. -/
def runSim (runs : ℕ) (cashflows : List ℚ) (rows : List Row)
    (revTrend costTrend revVol costVol : ℚ) (randomizeRate : Bool)
    (rateVol baseRate : ℚ) (rands : ℕ → ℚ) : List ℚ :=
  (List.range runs).map (fun k =>
    simTrial rows (cashflows.headD 0) revTrend costTrend revVol costVol
      randomizeRate rateVol baseRate rands (k * drawsPerTrial rows.length randomizeRate))

/-- The population variance, written exactly as the spec words it:
`(1/n) · Σ (x − mean)²` (dividing by `n`, not `n − 1`). -/
def popVarianceSpec (arr : List ℚ) : ℚ :=
  (arr.map (fun x => (x - mean arr) ^ 2)).sum / (arr.length : ℚ)

/-- The population standard deviation as the spec words it. -/
noncomputable def popStdSpec (arr : List ℚ) : ℝ :=
  Real.sqrt (popVarianceSpec arr)

/-- Sums over a list of pointwise sums split. -/
theorem sum_map_add_split (l : List ℕ) (g h : ℕ → ℕ) :
    (l.map (fun i => g i + h i)).sum = (l.map g).sum + (l.map h).sum := by
  induction l with
  | nil => simp
  | cons a t ih => simp only [List.map_cons, List.sum_cons, ih]; omega

/-- Summing the indicator of `v` over `0..n-1` gives `1` when `v < n`. -/
theorem sum_map_indicator (n v : ℕ) (hv : v < n) :
    ((List.range n).map (fun i => if v = i then 1 else 0)).sum = 1 := by
  induction n with
  | zero => omega
  | succ n ih =>
    rw [List.range_succ, List.map_append, List.sum_append]
    by_cases h : v = n
    · subst h
      have : ((List.range v).map (fun i => if v = i then 1 else 0)).sum = 0 := by
        apply List.sum_eq_zero
        intro x hx
        simp only [List.mem_map, List.mem_range] at hx
        obtain ⟨i, hi, hix⟩ := hx
        simp [Nat.ne_of_gt hi] at hix
        omega
      simp [this]
    · have hv' : v < n := by omega
      simp [ih hv', h]

/-- A per-bucket count of a classifier that always lands below `n` sums to
the length of the classified list. -/
theorem sum_bucket_counts (l : List ℚ) (f : ℚ → ℕ) (n : ℕ)
    (hf : ∀ v ∈ l, f v < n) :
    ((List.range n).map (fun i => (l.filter (fun v => f v = i)).length)).sum
      = l.length := by
  induction l with
  | nil => simp
  | cons a t ih =>
    have ha : f a < n := hf a (List.mem_cons_self a t)
    have ht : ∀ v ∈ t, f v < n := fun v hv => hf v (List.mem_cons_of_mem a hv)
    have step : ∀ i : ℕ,
        ((a :: t).filter (fun v => f v = i)).length
          = (if f a = i then 1 else 0) + (t.filter (fun v => f v = i)).length := by
      intro i
      by_cases h : f a = i <;> simp [List.filter_cons, h, Nat.add_comm]
    rw [List.map_congr_left (fun i _ => step i), sum_map_add_split,
      sum_map_indicator n (f a) ha, ih ht]
    simp [Nat.add_comm]

/-- The clamped bin index always lands strictly below the bin count when
there is at least one bin. -/
theorem binIndex_lt (minV step : ℚ) (bins : ℕ) (hb : 1 ≤ bins) (v : ℚ) :
    binIndex minV step bins v < bins := by
  unfold binIndex
  omega

/-- Claim C1: for the cash-flow series `[-800000000, 230000000]` and rate
`0.25`, `presentValue` returns `-800000000 + 230000000/1.25 = -616000000`
(exactly, in the rational model). -/
theorem C1_npv_end_to_end :
    npv [-800000000, 230000000] (25 / 100) = -616000000 := by
  norm_num [npv, List.enum, List.enumFrom]

/-- Claim C2 (code evaluated at the failing input): at the rate `-2 ≤ -1`
the source `npv` silently returns the finite value `-1030000000` — there is
no `DomainError` path and no non-finite sentinel for rates below `-1`. -/
theorem C2_npv_finite_below_minus_one :
    (-2 : ℚ) ≤ -1 ∧ npv [-800000000, 230000000] (-2) = -1030000000 := by
  constructor
  · norm_num
  · norm_num [npv, List.enum, List.enumFrom]

/-- Claim C7 (code evaluated at the failing input): on an empty risk set
the aggregate score is `0/0 = NaN` (modelled `none`) and `riskLevel`
classifies it `High` (both `NaN ≤ 6` and `NaN ≤ 14` are false), i.e. an
arbitrary classification rather than a "no data" result. -/
theorem C7_empty_risks_yield_high :
    totalRiskScore [] = none ∧ riskLevelJS (totalRiskScore []) = RiskLevelLabel.high := by
  constructor
  · rfl
  · rfl

/-- Claim C9: the fallback verdict is a function of exactly the two
comparisons `NPV > 0` and `IRR > rate`: accept iff both hold, reject iff
neither holds, needs-optimization iff exactly one holds. -/
theorem C9_fallback_verdict_characterization (n i r : ℚ) :
    (fallbackVerdict n i r = Verdict.accept ↔ (0 < n ∧ r < i)) ∧
    (fallbackVerdict n i r = Verdict.needsOptimization ↔
      ((0 < n ∧ i ≤ r) ∨ (n ≤ 0 ∧ r < i))) ∧
    (fallbackVerdict n i r = Verdict.reject ↔ (n ≤ 0 ∧ i ≤ r)) := by
  unfold fallbackVerdict
  by_cases h1 : 0 < n <;> by_cases h2 : r < i
  · exact ⟨by simp [h1, h2], by simp [h1, h2, not_le.mpr h2, not_le.mpr h1],
      by simp [h1, h2, not_le.mpr h2]⟩
  · exact ⟨by simp [h1, h2], by simp [h1, h2, not_lt.mp h2, not_le.mpr h1],
      by simp [h1, h2, not_le.mpr h1]⟩
  · exact ⟨by simp [h1, h2], by simp [h1, h2, not_lt.mp h1, h2],
      by simp [h1, h2, not_le.mpr h2]⟩
  · exact ⟨by simp [h1, h2], by simp [h1, h2, not_lt.mp h1, not_lt.mp h2],
      by simp [h1, h2, not_lt.mp h1, not_lt.mp h2]⟩

/-- Claim C9 witness: with `NPV = 1 > 0` and `IRR = 1 > rate = 0` the
verdict is accept. -/
theorem C9_fallback_verdict_witness :
    fallbackVerdict 1 1 0 = Verdict.accept :=
  (C9_fallback_verdict_characterization 1 1 0).1.mpr (by norm_num)

/-- Claim C10: for every non-empty outcome sequence the reported standard
deviation is the population standard deviation
`sqrt((1/n) · Σ (x − mean)²)`, dividing by `n` rather than `n − 1`. -/
theorem C10_std_is_population (arr : List ℚ) (h : arr ≠ []) :
    std arr = popStdSpec arr := by
  unfold std popStdSpec
  have hlen : arr.length ≠ 0 := fun hl => h (List.length_eq_zero.mp hl)
  have : stdSq arr = popVarianceSpec arr := by
    unfold stdSq popVarianceSpec mean
    rw [List.length_map]
    simp [hlen]
  rw [this]

/-- Claim C10 witness: the identity applied at `[1, 2]`. -/
theorem C10_std_is_population_witness :
    ([1, 2] : List ℚ) ≠ [] ∧ std [1, 2] = popStdSpec [1, 2] :=
  ⟨by decide, C10_std_is_population [1, 2] (by decide)⟩

/-- Claim C6: for every non-empty outcome sequence and every bin count
`≥ 1`, the histogram's bin counts sum to the length of the sequence
(including the degenerate `min = max` span, replaced by `1`). -/
theorem C6_histogram_mass (values : List ℚ) (bins : ℕ)
    (hv : values ≠ []) (hb : 1 ≤ bins) :
    ((buildHistogram values bins).map HBin.count).sum = values.length := by
  unfold buildHistogram
  rw [if_neg hv, List.map_map]
  have := sum_bucket_counts values
    (binIndex (listMin values)
      ((if listMax values - listMin values = 0 then 1 else listMax values - listMin values)
        / (bins : ℚ)) bins) bins
    (fun v _ => binIndex_lt _ _ bins hb v)
  simpa [Function.comp] using this

/-- Claim C6 witness: the degenerate all-equal sequence `[5, 5, 5]` with
three bins has total mass `3`. -/
theorem C6_histogram_mass_witness :
    ([5, 5, 5] : List ℚ) ≠ [] ∧ 1 ≤ 3 ∧
      ((buildHistogram [5, 5, 5] 3).map HBin.count).sum = 3 :=
  ⟨by decide, by decide, C6_histogram_mass [5, 5, 5] 3 (by decide) (by decide)⟩

/-- Claim C4: a run with `runs ≥ 1` trials produces exactly `runs`
outcomes, and the `k`-th outcome is the `k`-th trial's present value (trial
order), each trial reading its shocks from its own segment of the injected
normal stream.  Inputs are never mutated: every embedded operation is a
pure function of the schedule and configuration. -/
theorem C4_runSim_cardinality_order (runs : ℕ) (cashflows : List ℚ)
    (rows : List Row) (revTrend costTrend revVol costVol : ℚ)
    (randomizeRate : Bool) (rateVol baseRate : ℚ) (rands : ℕ → ℚ)
    (hruns : 1 ≤ runs) :
    (runSim runs cashflows rows revTrend costTrend revVol costVol
        randomizeRate rateVol baseRate rands).length = runs ∧
    ∀ k, k < runs →
      (runSim runs cashflows rows revTrend costTrend revVol costVol
          randomizeRate rateVol baseRate rands)[k]? =
        some (simTrial rows (cashflows.headD 0) revTrend costTrend revVol costVol
          randomizeRate rateVol baseRate rands
          (k * drawsPerTrial rows.length randomizeRate)) := by
  unfold runSim
  refine ⟨by simp, fun k hk => ?_⟩
  simp [List.getElem?_map, List.getElem?_range, hk]

/-- Claim C4 witness: two trials with a one-year schedule and the zero
normal stream. -/
theorem C4_runSim_cardinality_order_witness :
    1 ≤ 2 ∧
    ((runSim 2 [-1, 2] [⟨1, 2, 1, 1⟩] 0 0 0 0 false 0 0 (fun _ => 0)).length = 2 ∧
      ∀ k, k < 2 →
        (runSim 2 [-1, 2] [⟨1, 2, 1, 1⟩] 0 0 0 0 false 0 0 (fun _ => 0))[k]? =
          some (simTrial [⟨1, 2, 1, 1⟩] (([-1, 2] : List ℚ).headD 0) 0 0 0 0
            false 0 0 (fun _ => 0) (k * drawsPerTrial [(⟨1, 2, 1, 1⟩ : Row)].length false))) :=
  ⟨by norm_num,
    C4_runSim_cardinality_order 2 [-1, 2] [⟨1, 2, 1, 1⟩] 0 0 0 0 false 0 0
      (fun _ => 0) (by norm_num)⟩

/-- Unfolding equation for one Newton iteration of `irrGo`. -/
theorem irrGo_succ (cfs : List ℚ) (x : ℚ) (fuel : ℕ) :
    irrGo cfs x (fuel + 1) =
      if npvDeriv cfs x = 0 then none
      else
        let nx := x - npv cfs x / npvDeriv cfs x
        if |nx - x| < 1 / 1000000000 then some nx
        else irrGo cfs nx fuel := rfl

/-- Claim C3 counterexample: `[-3, -5, 3]` has exactly one sign change, yet
`irr` (from the source's default guess `0.2`) fails with the `NaN`
sentinel: at the very first iterate the derivative `df` is `0`
(`5/1.2² = 6/1.2³`), so `f/df` is non-finite and the loop breaks.  There is
thus no returned rate at which the present value could be `≈ 0`. -/
theorem C3_irr_roundtrip_counterexample :
    signChanges [-3, -5, 3] = 1 ∧ irr [-3, -5, 3] (1 / 5) = none := by
  constructor
  · norm_num [signChanges, signChanges.go, List.filter]
  · have hdf : npvDeriv [-3, -5, 3] (1 / 5) = 0 := by
      norm_num [npvDeriv, List.enum, List.enumFrom]
    rw [irr, show (80 : ℕ) = 79 + 1 from rfl, irrGo_succ, if_pos hdf]

/-- Claim C3 amended: the round-trip holds only when the Newton loop
actually converges, which a single sign change does not guarantee; on the
one-sign-change series `[-5, 6]` the solver does converge and returns the
rate `1/5`, at which the present value is exactly `0` (well within the
`1e-6` tolerance). -/
theorem C3_irr_roundtrip_amended :
    signChanges [-5, 6] = 1 ∧ irr [-5, 6] (1 / 5) = some (1 / 5) ∧
      |npv [-5, 6] (1 / 5)| ≤ 1 / 1000000 := by
  refine ⟨?_, ?_, ?_⟩
  · norm_num [signChanges, signChanges.go, List.filter]
  · have hf : npv [-5, 6] (1 / 5) = 0 := by
      norm_num [npv, List.enum, List.enumFrom]
    have hdf : npvDeriv [-5, 6] (1 / 5) = -25 / 6 := by
      norm_num [npvDeriv, List.enum, List.enumFrom]
    rw [irr, show (80 : ℕ) = 79 + 1 from rfl, irrGo_succ,
      if_neg (by rw [hdf]; norm_num)]
    simp only [hf, hdf]
    norm_num
  · norm_num [npv, List.enum, List.enumFrom]

/-- Claim C8 counterexample: with `pointCount = 1` the rank computation of
`buildCDF` divides by `pointCount - 1 = 0`; the single emitted sample is
`(undefined, NaN)` (modelled `(none, none)`) — there is no explicit guard. -/
theorem C8_cdf_point_one_counterexample :
    buildCDF [1, 2] 1 = [(none, none)] := by
  rfl

/-- Claim C8 amended: the degenerate case is not guarded — with
`pointCount = 1` the sampler emits the `(undefined, NaN)` pair (see the
counterexample).  For `pointCount ≥ 2` and at least two outcomes, every
emitted pair is well defined: the sampled value is an element of the
outcomes and the cumulative probability lies in `[0, 1]`. -/
theorem C8_cdf_guarded_for_points_ge_two (values : List ℚ) (points : ℕ)
    (hp : 2 ≤ points) (hn : 2 ≤ values.length) :
    ∀ pr ∈ buildCDF values points,
      (∃ x, pr.1 = some x ∧ x ∈ values) ∧
      (∃ q, pr.2 = some q ∧ 0 ≤ q ∧ q ≤ 1) := by
  have hne : values ≠ [] := by
    intro h
    rw [h] at hn
    simp at hn
  have hslen : (List.insertionSort (· ≤ ·) values).length = values.length :=
    (List.perm_insertionSort (· ≤ ·) values).length_eq
  have hp1 : points ≠ 1 := by omega
  have hn1 : (List.insertionSort (· ≤ ·) values).length ≠ 1 := by omega
  intro pr hpr
  simp only [buildCDF, if_neg hne, List.mem_map, List.mem_range, if_neg hp1,
    if_neg hn1] at hpr
  obtain ⟨i, hi, hpr⟩ := hpr
  subst hpr
  have hpts : (0 : ℚ) < (points : ℚ) - 1 := by
    have h2 : (2 : ℚ) ≤ (points : ℚ) := by exact_mod_cast hp
    linarith
  have hratio0 : 0 ≤ (i : ℚ) / ((points : ℚ) - 1) :=
    div_nonneg (by positivity) hpts.le
  have hratio1 : (i : ℚ) / ((points : ℚ) - 1) ≤ 1 := by
    rw [div_le_one hpts]
    have : (i : ℚ) + 1 ≤ (points : ℚ) := by exact_mod_cast hi
    linarith
  have hlen2 : (2 : ℚ) ≤ ((List.insertionSort (· ≤ ·) values).length : ℚ) := by
    rw [hslen]
    exact_mod_cast hn
  have hprod0 : 0 ≤ (i : ℚ) / ((points : ℚ) - 1) *
      (((List.insertionSort (· ≤ ·) values).length : ℚ) - 1) :=
    mul_nonneg hratio0 (by linarith)
  have hprodle : (i : ℚ) / ((points : ℚ) - 1) *
      (((List.insertionSort (· ≤ ·) values).length : ℚ) - 1) ≤
      (((List.insertionSort (· ≤ ·) values).length : ℚ) - 1) :=
    mul_le_of_le_one_left (by linarith) hratio1
  have hfl0 : 0 ≤ ⌊(i : ℚ) / ((points : ℚ) - 1) *
      (((List.insertionSort (· ≤ ·) values).length : ℚ) - 1)⌋ :=
    Int.floor_nonneg.mpr hprod0
  have hfloor : ⌊(((List.insertionSort (· ≤ ·) values).length : ℚ) - 1)⌋ =
      ((List.insertionSort (· ≤ ·) values).length : ℤ) - 1 := by
    rw [show ((((List.insertionSort (· ≤ ·) values).length : ℚ)) - 1) =
        ((((List.insertionSort (· ≤ ·) values).length : ℤ) - 1 : ℤ) : ℚ) by push_cast; ring]
    exact Int.floor_intCast _
  have hfl : ⌊(i : ℚ) / ((points : ℚ) - 1) *
      (((List.insertionSort (· ≤ ·) values).length : ℚ) - 1)⌋ ≤
      ((List.insertionSort (· ≤ ·) values).length : ℤ) - 1 :=
    (Int.floor_mono hprodle).trans hfloor.le
  have hidx : (⌊(i : ℚ) / ((points : ℚ) - 1) *
      (((List.insertionSort (· ≤ ·) values).length : ℚ) - 1)⌋).toNat <
      (List.insertionSort (· ≤ ·) values).length := by
    omega
  constructor
  · refine ⟨(List.insertionSort (· ≤ ·) values)[(⌊(i : ℚ) / ((points : ℚ) - 1) *
      (((List.insertionSort (· ≤ ·) values).length : ℚ) - 1)⌋).toNat], ?_, ?_⟩
    · exact List.getElem?_eq_getElem hidx
    · exact (List.perm_insertionSort (· ≤ ·) values).mem_iff.mp
        (List.getElem_mem hidx)
  · refine ⟨_, rfl, ?_, ?_⟩
    · exact div_nonneg (by positivity) (by linarith)
    · rw [div_le_one (by linarith)]
      have hcast : ((⌊(i : ℚ) / ((points : ℚ) - 1) *
          (((List.insertionSort (· ≤ ·) values).length : ℚ) - 1)⌋).toNat : ℤ) =
          ⌊(i : ℚ) / ((points : ℚ) - 1) *
          (((List.insertionSort (· ≤ ·) values).length : ℚ) - 1)⌋ :=
        Int.toNat_of_nonneg hfl0
      have : ((⌊(i : ℚ) / ((points : ℚ) - 1) *
          (((List.insertionSort (· ≤ ·) values).length : ℚ) - 1)⌋).toNat : ℚ) ≤
          (((List.insertionSort (· ≤ ·) values).length : ℚ) - 1) := by
        have h3 : ((⌊(i : ℚ) / ((points : ℚ) - 1) *
            (((List.insertionSort (· ≤ ·) values).length : ℚ) - 1)⌋).toNat : ℤ) ≤
            ((List.insertionSort (· ≤ ·) values).length : ℤ) - 1 := by omega
        have h4 : ((((⌊(i : ℚ) / ((points : ℚ) - 1) *
            (((List.insertionSort (· ≤ ·) values).length : ℚ) - 1)⌋).toNat : ℤ)) : ℚ) ≤
            ((((List.insertionSort (· ≤ ·) values).length : ℤ) - 1 : ℤ) : ℚ) := by
          exact_mod_cast h3
        push_cast at h4
        linarith
      linarith

/-- Claim C8 amended witness: two outcomes sampled at two points. -/
theorem C8_cdf_guarded_witness :
    2 ≤ 2 ∧ 2 ≤ ([1, 2] : List ℚ).length ∧
      ∀ pr ∈ buildCDF [1, 2] 2,
        (∃ x, pr.1 = some x ∧ x ∈ ([1, 2] : List ℚ)) ∧
        (∃ q, pr.2 = some q ∧ 0 ≤ q ∧ q ≤ 1) :=
  ⟨le_refl 2, by decide, C8_cdf_guarded_for_points_ge_two [1, 2] 2 (le_refl 2) (by decide)⟩

/-- On a sorted list, `getD _ 0` is monotone over in-bounds indices. -/
theorem sorted_getD_mono (s : List ℚ) (hs : List.Sorted (· ≤ ·) s)
    (i j : ℕ) (hij : i ≤ j) (hj : j < s.length) :
    s.getD i 0 ≤ s.getD j 0 := by
  have hi : i < s.length := lt_of_le_of_lt hij hj
  rw [List.getD_eq_getElem s 0 hi, List.getD_eq_getElem s 0 hj]
  show s.get ⟨i, hi⟩ ≤ s.get ⟨j, hj⟩
  exact List.Sorted.rel_get_of_le hs (Fin.mk_le_mk.mpr hij)

/-- `percentile` on a non-empty array always returns the interpolation
value at the fractional index (both source branches agree with it). -/
theorem percentile_eq_interpAt (arr : List ℚ) (p : ℚ) (hne : arr ≠ []) :
    percentile arr p = some (interpAt (List.insertionSort (· ≤ ·) arr)
      ((p / 100) * (((List.insertionSort (· ≤ ·) arr).length : ℚ) - 1))) := by
  unfold percentile interpAt
  rw [if_neg hne]
  set q := (p / 100) * (((List.insertionSort (· ≤ ·) arr).length : ℚ) - 1) with hq
  by_cases h : ⌊q⌋ = ⌈q⌉
  · rw [if_pos h]
    have hw : q - (⌊q⌋ : ℚ) = 0 := by
      have h1 := Int.floor_le q
      have h2 := Int.le_ceil q
      rw [← h] at h2
      linarith
    congr 1
    rw [← h, hw]
    ring
  · rw [if_neg h]

/-- The interpolation value is monotone in the fractional index over the
valid index range of a sorted list. -/
theorem interpAt_mono (s : List ℚ) (hs : List.Sorted (· ≤ ·) s)
    (q1 q2 : ℚ) (h0 : 0 ≤ q1) (h12 : q1 ≤ q2) (hup : q2 ≤ (s.length : ℚ) - 1) :
    interpAt s q1 ≤ interpAt s q2 := by
  have h02 : 0 ≤ q2 := h0.trans h12
  have hL1 : 0 ≤ ⌊q1⌋ := Int.floor_nonneg.mpr h0
  have hL2 : 0 ≤ ⌊q2⌋ := Int.floor_nonneg.mpr h02
  have hH1 : 0 ≤ ⌈q1⌉ := hL1.trans (Int.floor_le_ceil q1)
  have hH2 : 0 ≤ ⌈q2⌉ := hL2.trans (Int.floor_le_ceil q2)
  have hH2ub : ⌈q2⌉ ≤ (s.length : ℤ) - 1 := by
    rw [Int.ceil_le]
    push_cast
    linarith
  have hH1ub : ⌈q1⌉ ≤ (s.length : ℤ) - 1 := (Int.ceil_mono h12).trans hH2ub
  have hL1ub : ⌊q1⌋ ≤ (s.length : ℤ) - 1 := (Int.floor_le_ceil q1).trans hH1ub
  have hL2ub : ⌊q2⌋ ≤ (s.length : ℤ) - 1 := (Int.floor_le_ceil q2).trans hH2ub
  have hlen : 1 ≤ s.length := by
    by_contra hcon
    have hzero : s.length = 0 := by omega
    rw [hzero] at hup
    norm_num at hup
    linarith
  have hw1lo : 0 ≤ q1 - (⌊q1⌋ : ℚ) := sub_nonneg.mpr (Int.floor_le q1)
  have hw1hi : q1 - (⌊q1⌋ : ℚ) ≤ 1 := by
    have := Int.lt_floor_add_one q1
    push_cast at this
    linarith
  have hw2lo : 0 ≤ q2 - (⌊q2⌋ : ℚ) := sub_nonneg.mpr (Int.floor_le q2)
  have hw2hi : q2 - (⌊q2⌋ : ℚ) ≤ 1 := by
    have := Int.lt_floor_add_one q2
    push_cast at this
    linarith
  have vmono : ∀ a b : ℤ, 0 ≤ a → a ≤ b → b ≤ (s.length : ℤ) - 1 →
      s.getD a.toNat 0 ≤ s.getD b.toNat 0 := by
    intro a b ha hab hb
    exact sorted_getD_mono s hs a.toNat b.toNat (by omega) (by omega)
  by_cases hc : ⌈q1⌉ ≤ ⌊q2⌋
  · have hv1 : s.getD (⌊q1⌋).toNat 0 ≤ s.getD (⌈q1⌉).toNat 0 :=
      vmono _ _ hL1 (Int.floor_le_ceil q1) hH1ub
    have hv2 : s.getD (⌊q2⌋).toNat 0 ≤ s.getD (⌈q2⌉).toNat 0 :=
      vmono _ _ hL2 (Int.floor_le_ceil q2) hH2ub
    have hmid : s.getD (⌈q1⌉).toNat 0 ≤ s.getD (⌊q2⌋).toNat 0 :=
      vmono _ _ hH1 hc hL2ub
    unfold interpAt
    nlinarith [mul_le_mul_of_nonneg_right hv1 hw1lo,
      mul_le_mul_of_nonneg_right hv2 hw2lo]
  · push_neg at hc
    have hceil1 : ⌈q1⌉ ≤ ⌊q1⌋ + 1 := Int.ceil_le_floor_add_one q1
    have hLL : ⌊q1⌋ ≤ ⌊q2⌋ := Int.floor_mono h12
    have hLeq : ⌊q1⌋ = ⌊q2⌋ := by omega
    by_cases hq2i : ⌈q2⌉ = ⌊q2⌋
    · have hq2eq : q2 = (⌊q2⌋ : ℚ) := by
        have h2 := Int.le_ceil q2
        rw [hq2i] at h2
        have h1 := Int.floor_le q2
        linarith
      have heq : q1 = q2 := by
        have hfl1 : (⌊q1⌋ : ℚ) ≤ q1 := Int.floor_le q1
        rw [hLeq] at hfl1
        linarith [hq2eq ▸ hfl1]
      rw [heq]
    · have hc2 : ⌈q2⌉ = ⌊q2⌋ + 1 := by
        have := Int.ceil_le_floor_add_one q2
        have := Int.floor_le_ceil q2
        omega
      have hc1 : ⌈q1⌉ = ⌊q1⌋ + 1 := by
        have := Int.floor_le_ceil q1
        omega
      have hv : s.getD (⌊q2⌋).toNat 0 ≤ s.getD (⌊q2⌋ + 1).toNat 0 :=
        vmono _ _ hL2 (by omega) (by omega)
      unfold interpAt
      rw [hc1, hc2, hLeq]
      have hw12 : q1 - (⌊q2⌋ : ℚ) ≤ q2 - (⌊q2⌋ : ℚ) := by linarith
      have key : s.getD (⌊q2⌋).toNat 0 * (1 - (q2 - (⌊q2⌋ : ℚ))) +
            s.getD (⌊q2⌋ + 1).toNat 0 * (q2 - (⌊q2⌋ : ℚ)) -
            (s.getD (⌊q2⌋).toNat 0 * (1 - (q1 - (⌊q2⌋ : ℚ))) +
              s.getD (⌊q2⌋ + 1).toNat 0 * (q1 - (⌊q2⌋ : ℚ))) =
          (s.getD (⌊q2⌋ + 1).toNat 0 - s.getD (⌊q2⌋).toNat 0) * (q2 - q1) := by
        ring
      nlinarith [mul_nonneg (sub_nonneg.mpr hv) (sub_nonneg.mpr h12)]

/-- Claim C5: for every non-empty outcome sequence and probabilities
`0 ≤ p1 < p2 ≤ 100`, `percentile(outcomes, p1) ≤ percentile(outcomes, p2)`
(both defined, via the linear-interpolation rule on the fractional index
`p/100 · (count − 1)`). -/
theorem C5_percentile_monotone (arr : List ℚ) (p1 p2 : ℚ) (hne : arr ≠ [])
    (h0 : 0 ≤ p1) (h12 : p1 < p2) (h100 : p2 ≤ 100) :
    ∃ v1 v2, percentile arr p1 = some v1 ∧ percentile arr p2 = some v2 ∧
      v1 ≤ v2 := by
  have hs : List.Sorted (· ≤ ·) (List.insertionSort (· ≤ ·) arr) :=
    List.sorted_insertionSort (· ≤ ·) arr
  have hlen : 1 ≤ (List.insertionSort (· ≤ ·) arr).length := by
    have hne' : arr.length ≠ 0 := fun h => hne (List.length_eq_zero.mp h)
    have hperm := (List.perm_insertionSort (· ≤ ·) arr).length_eq
    omega
  have hlenq : (1 : ℚ) ≤ ((List.insertionSort (· ≤ ·) arr).length : ℚ) := by
    exact_mod_cast hlen
  refine ⟨_, _, percentile_eq_interpAt arr p1 hne, percentile_eq_interpAt arr p2 hne, ?_⟩
  apply interpAt_mono _ hs
  · exact mul_nonneg (div_nonneg h0 (by norm_num)) (by linarith)
  · exact mul_le_mul_of_nonneg_right
      ((div_le_div_iff_of_pos_right (by norm_num : (0 : ℚ) < 100)).mpr h12.le)
      (by linarith)
  · have hp2 : p2 / 100 ≤ 1 := by
      rw [div_le_one (by norm_num : (0:ℚ) < 100)]
      exact h100
    exact mul_le_of_le_one_left (by linarith) hp2

/-- Claim C5 witness: the inequality applied to `[3, 1, 2]` at `p1 = 10`,
`p2 = 90`. -/
theorem C5_percentile_monotone_witness :
    ([3, 1, 2] : List ℚ) ≠ [] ∧ (0 : ℚ) ≤ 10 ∧ (10 : ℚ) < 90 ∧ (90 : ℚ) ≤ 100 ∧
      ∃ v1 v2, percentile [3, 1, 2] 10 = some v1 ∧
        percentile [3, 1, 2] 90 = some v2 ∧ v1 ≤ v2 :=
  ⟨by decide, by norm_num, by norm_num, by norm_num,
    C5_percentile_monotone [3, 1, 2] 10 90 (by decide) (by norm_num) (by norm_num)
      (by norm_num)⟩
